import Mathlib

/-!
Verification of the slice decomposition engine of `src/slicer.py`.

The Python script works on a dict `motif` mapping stock symbols to
percentage weights.  We embed the dict as an insertion-ordered
association list with natural-number symbols and rational weights
(the script's floats are modelled exactly by `ℚ`).
-/

namespace Slicer

/-- A motif: insertion-ordered mapping from stock symbol to percentage
weight, modelling the Python dict `original` / `motif`. -/
abbrev Motif := List (ℕ × ℚ)

/-- The symbols of a motif, in order (`motif.keys()`). -/
def keys (m : Motif) : List ℕ := m.map Prod.fst

/-- The weights of a motif, in order (`motif.values()`). -/
def vals (m : Motif) : List ℚ := m.map Prod.snd

/-- Minimum-percentage scan of `src/slicer.py` lines 122–127: `minpercent`
starts at `100.0` and is replaced by any strictly smaller weight found
while scanning the dict. -/
def minpercent (m : Motif) : ℚ :=
  m.foldl (fun acc p => if p.2 < acc then p.2 else acc) 100

/-- The drop-window test of line 159:
`percent >= minpercent - epsilon and percent <= minpercent + epsilon`. -/
def inWindow (eps mp v : ℚ) : Bool :=
  decide (mp - eps ≤ v) && decide (v ≤ mp + eps)

/-- Line 133: `stepCost = investment * minpercent/100`. -/
def stepCost (investment mp : ℚ) : ℚ := investment * mp / 100

/-- Symbols dropped in the current step (lines 158–161): those whose
residual weight lies in the epsilon window around the minimum. -/
def droppedKeys (eps : ℚ) (m : Motif) : List ℕ :=
  (m.filter fun p => inWindow eps (minpercent m) p.2).map Prod.fst

/-- The motif surviving the current step (lines 158–163): symbols outside
the window keep their entry, decremented by the minimum percentage. -/
def survivors (eps : ℚ) (m : Motif) : Motif :=
  (m.filter fun p => !(inWindow eps (minpercent m) p.2)).map
    fun p => (p.1, p.2 - minpercent m)

/-- One step of the purchase plan: the per-unit weight spent
(`minpercent`), the motif active when the step starts, and the symbols
dropped by the step. -/
structure Step where
  weight : ℚ
  active : Motif
  dropped : List ℕ
  deriving DecidableEq

/-- The data produced by one full run of the inner `while motif.keys()`
loop: the list of steps, the per-symbol cumulative spend dict
(`spendage`, embedded as a total function defaulting to `0`), and the
accumulated `totalizedInvestment`. -/
structure RunResult where
  steps : List Step
  spend : ℕ → ℚ
  total : ℚ

/-- The inner `while motif.keys()` loop of lines 120–169, with explicit
fuel standing for the (claimed) termination of the `while`.  Per
iteration it computes `minpercent`, adds `stepCost * len(motif.keys())`
to `totalizedInvestment` (line 140), adds the full `stepCost` to
`spendage[k]` for every active symbol `k` (lines 154–157), and drops
every symbol whose weight is inside the epsilon window (lines 158–163). -/
def decomposeAux (investment eps : ℚ) :
    ℕ → Motif → (ℕ → ℚ) → ℚ → Option RunResult
  | _, [], sp, tot => some ⟨[], sp, tot⟩
  | 0, _ :: _, _, _ => none
  | fuel + 1, q :: rest, sp, tot =>
    (decomposeAux investment eps fuel (survivors eps (q :: rest))
        (fun k => if k ∈ keys (q :: rest) then
            sp k + stepCost investment (minpercent (q :: rest)) else sp k)
        (tot + stepCost investment (minpercent (q :: rest)) *
          (q :: rest).length)).map
      fun r => ⟨⟨minpercent (q :: rest), q :: rest, droppedKeys eps (q :: rest)⟩
        :: r.steps, r.spend, r.total⟩

/-- One full run of the inner loop starting from the original motif with
empty `spendage` and zero `totalizedInvestment`; the fuel `m.length`
suffices whenever the allocation is valid (see the termination theorem). -/
def decompose (investment eps : ℚ) (m : Motif) : Option RunResult :=
  decomposeAux investment eps m.length m (fun _ => 0) 0

/-- Line 173: `slop = abs(investment - totalizedInvestment)`. -/
def slopOf (investment eps : ℚ) (m : Motif) : Option ℚ :=
  (decompose investment eps m).map fun r => |investment - r.total|

/-- Step count of the plan produced for a given epsilon. -/
def stepCountOf (investment eps : ℚ) (m : Motif) : Option ℕ :=
  (decompose investment eps m).map fun r => r.steps.length

/-- The deltas recorded during the first (`epsilon = 0`) iteration,
lines 128–130: `minpercent` is appended once per step of that run, so
the recorded list is exactly the per-step weight sequence of the
baseline plan. -/
def deltas0 (investment : ℚ) (m : Motif) : List ℚ :=
  ((decompose investment 0 m).map fun r => r.steps.map Step.weight).getD []

/-- One iteration of the outer tolerance-search loop, as reported:
the epsilon used, the resulting slop and step count, and whether the
report was printed (`slop > lastSlop`, lines 186–188). -/
structure Iter where
  eps : ℚ
  slop : ℚ
  nsteps : ℕ
  shown : Bool
  deriving DecidableEq

/-- The outer `while not done` loop of lines 96–201, after the deltas
have been recorded: each iteration runs the inner loop at the current
epsilon; if `slop <= maxSlop` and deltas remain, epsilon grows by
`deltas.pop(0)` (lines 195–197); otherwise the loop stops. -/
def searchAux (investment maxSlop : ℚ) (orig : Motif) :
    List ℚ → ℚ → ℚ → List Iter
  | [], eps, lastSlop =>
    match decompose investment eps orig with
    | none => []
    | some r =>
      let slop := |investment - r.total|
      [⟨eps, slop, r.steps.length, decide (lastSlop < slop)⟩]
  | d :: ds, eps, lastSlop =>
    match decompose investment eps orig with
    | none => []
    | some r =>
      let slop := |investment - r.total|
      let it : Iter := ⟨eps, slop, r.steps.length, decide (lastSlop < slop)⟩
      if slop ≤ maxSlop then
        it :: searchAux investment maxSlop orig ds (eps + d) slop
      else [it]

/-- The tolerance search: epsilon starts at `0.0` (line 80), `lastSlop`
at `-1.00` (line 93), and the delta list is the one recorded during the
baseline run. -/
def searchTolerance (investment maxSlop : ℚ) (orig : Motif) : List Iter :=
  searchAux investment maxSlop orig (deltas0 investment orig) 0 (-1)

/-- The reconstructed weight of symbol `k`: the sum over all steps of
`per-unit weight × (1 if k active in the step else 0)`. -/
def contrib (k : ℕ) (steps : List Step) : ℚ :=
  (steps.map fun s => if k ∈ keys s.active then s.weight else 0).sum

/-- The cumulative dollar spend attributed to symbol `k` by the plan:
the sum over all steps in which `k` is active of the full step cost. -/
def contribCost (investment : ℚ) (k : ℕ) (steps : List Step) : ℚ :=
  (steps.map fun s =>
    if k ∈ keys s.active then stepCost investment s.weight else 0).sum

/-- The epsilon schedule generated by popping deltas from the front:
`eps`, then `eps + d₁`, then `eps + d₁ + d₂`, …  -/
def epsSchedule (eps : ℚ) : List ℚ → List ℚ
  | [] => [eps]
  | d :: ds => eps :: epsSchedule (eps + d) ds

/-- The total cost of a plan read off its step list: each step contributes
`stepCost × (number of active symbols)` (line 140). -/
def planTotal (investment : ℚ) (steps : List Step) : ℚ :=
  (steps.map fun s => stepCost investment s.weight * s.active.length).sum

/-- The worked allocation `{A: 50, B: 30, C: 20}` used as an example by the
script's documentation, with symbols numbered. -/
def specAlloc : Motif := [(0, 50), (1, 30), (2, 20)]

/-- The tied allocation `{A: 40, B: 40, C: 20}`. -/
def tieAlloc : Motif := [(0, 40), (1, 40), (2, 20)]

/-- An allocation `{A: 3, B: 97}` whose first step costs three dollars at a
one-hundred-dollar investment, below the five-dollar brokerage minimum. -/
def smallAlloc : Motif := [(0, 3), (1, 97)]

/-- The allocation `{A: 1, B: 21, C: 38, D: 40}` (weights sum to 100). -/
def slopAlloc : Motif := [(0, 1), (1, 21), (2, 38), (3, 40)]

/-! ### Basic facts about the minimum scan -/

theorem foldmin_le_acc (m : Motif) (acc : ℚ) :
    m.foldl (fun a p => if p.2 < a then p.2 else a) acc ≤ acc := by
  induction m generalizing acc with
  | nil => simp
  | cons q rest ih =>
    simp only [List.foldl_cons]
    refine le_trans (ih _) ?_
    by_cases h : q.2 < acc
    · simpa [h] using le_of_lt h
    · simp [h]

theorem foldmin_le_mem (m : Motif) (acc : ℚ) :
    ∀ p ∈ m, m.foldl (fun a p => if p.2 < a then p.2 else a) acc ≤ p.2 := by
  induction m generalizing acc with
  | nil => simp
  | cons q rest ih =>
    intro p hp
    rcases List.mem_cons.mp hp with h | h
    · subst h
      simp only [List.foldl_cons]
      refine le_trans (foldmin_le_acc _ _) ?_
      by_cases h : p.2 < acc
      · simp [h]
      · simp [h, not_lt.mp h]
    · simpa using ih _ p h

theorem foldmin_cases (m : Motif) (acc : ℚ) :
    m.foldl (fun a p => if p.2 < a then p.2 else a) acc = acc ∨
      ∃ p ∈ m, m.foldl (fun a p => if p.2 < a then p.2 else a) acc = p.2 := by
  induction m generalizing acc with
  | nil => simp
  | cons q rest ih =>
    simp only [List.foldl_cons]
    rcases ih (if q.2 < acc then q.2 else acc) with h | ⟨p, hp, h⟩
    · by_cases hq : q.2 < acc
      · right; exact ⟨q, List.mem_cons_self _ _, by simpa [hq] using h⟩
      · left; simpa [hq] using h
    · right; exact ⟨p, List.mem_cons_of_mem _ hp, h⟩

theorem minpercent_le (m : Motif) : ∀ p ∈ m, minpercent m ≤ p.2 :=
  foldmin_le_mem m 100

theorem minpercent_le_hundred (m : Motif) : minpercent m ≤ 100 :=
  foldmin_le_acc m 100

theorem minpercent_nonneg (m : Motif) (h : ∀ p ∈ m, 0 ≤ p.2) :
    0 ≤ minpercent m := by
  rcases foldmin_cases m 100 with hc | ⟨p, hp, hc⟩
  · rw [minpercent, hc]; norm_num
  · rw [minpercent, hc]; exact (h p hp)

theorem minpercent_attained (m : Motif) (hne : m ≠ [])
    (h100 : ∀ p ∈ m, p.2 ≤ 100) : ∃ p ∈ m, p.2 = minpercent m := by
  rcases foldmin_cases m 100 with hc | ⟨p, hp, hc⟩
  · rcases m with _ | ⟨q, rest⟩
    · exact absurd rfl hne
    · refine ⟨q, List.mem_cons_self _ _, le_antisymm ?_ ?_⟩
      · rw [minpercent, hc]; exact h100 q (List.mem_cons_self _ _)
      · exact minpercent_le _ q (List.mem_cons_self _ _)
  · exact ⟨p, hp, (by rw [minpercent, hc])⟩

/-! ### The drop window -/

theorem inWindow_iff {eps mp v : ℚ} :
    inWindow eps mp v = true ↔ mp - eps ≤ v ∧ v ≤ mp + eps := by
  simp [inWindow]

theorem inWindow_zero_iff {mp v : ℚ} : inWindow 0 mp v = true ↔ v = mp := by
  rw [inWindow_iff]
  constructor
  · rintro ⟨h1, h2⟩
    simp only [sub_zero] at h1
    simp only [add_zero] at h2
    exact le_antisymm h2 h1
  · rintro rfl; constructor <;> simp

theorem inWindow_of_min {eps : ℚ} (heps : 0 ≤ eps) (mp : ℚ) :
    inWindow eps mp mp = true := by
  rw [inWindow_iff]
  constructor
  · linarith
  · linarith

/-! ### The survivors of one step -/

theorem mem_survivors {eps : ℚ} {m : Motif} {p' : ℕ × ℚ} :
    p' ∈ survivors eps m ↔
      ∃ p ∈ m, ¬ inWindow eps (minpercent m) p.2 = true ∧
        p' = (p.1, p.2 - minpercent m) := by
  simp only [survivors, List.mem_map, List.mem_filter, Bool.not_eq_true',
    Bool.not_eq_true]
  constructor
  · rintro ⟨p, ⟨hp, hw⟩, rfl⟩
    exact ⟨p, hp, by simp [hw], rfl⟩
  · rintro ⟨p, hp, hw, rfl⟩
    exact ⟨p, ⟨hp, by simp [hw]⟩, rfl⟩

theorem survivors_val_gt {eps : ℚ} (heps : 0 ≤ eps) {m : Motif} {p' : ℕ × ℚ}
    (hp' : p' ∈ survivors eps m) : eps < p'.2 := by
  rcases mem_survivors.mp hp' with ⟨p, hp, hw, rfl⟩
  have hmin := minpercent_le m p hp
  have : ¬ (p.2 ≤ minpercent m + eps) := by
    intro hle
    exact hw (inWindow_iff.mpr ⟨by linarith, hle⟩)
  simp only at *
  linarith [not_le.mp this]

theorem survivors_bounded {eps : ℚ} (heps : 0 ≤ eps) {m : Motif}
    (hb : ∀ p ∈ m, 0 ≤ p.2 ∧ p.2 ≤ 100) :
    ∀ p' ∈ survivors eps m, 0 ≤ p'.2 ∧ p'.2 ≤ 100 := by
  intro p' hp'
  have hgt := survivors_val_gt heps hp'
  rcases mem_survivors.mp hp' with ⟨p, hp, hw, rfl⟩
  have h0 := minpercent_nonneg m (fun p hp => (hb p hp).1)
  have h100 := (hb p hp).2
  constructor
  · linarith
  · simp only
    linarith

theorem droppedKeys_ne_nil {eps : ℚ} (heps : 0 ≤ eps) {m : Motif}
    (hne : m ≠ []) (h100 : ∀ p ∈ m, p.2 ≤ 100) : droppedKeys eps m ≠ [] := by
  rcases minpercent_attained m hne h100 with ⟨p, hp, hpv⟩
  have hw : inWindow eps (minpercent m) p.2 = true := by
    rw [hpv]; exact inWindow_of_min heps _
  have : p ∈ m.filter fun p => inWindow eps (minpercent m) p.2 :=
    List.mem_filter.mpr ⟨hp, hw⟩
  intro hcon
  rw [droppedKeys] at hcon
  rcases List.map_eq_nil_iff.mp hcon with hfil
  rw [hfil] at this
  exact List.not_mem_nil _ this

theorem survivors_length_lt {eps : ℚ} (heps : 0 ≤ eps) {m : Motif}
    (hne : m ≠ []) (h100 : ∀ p ∈ m, p.2 ≤ 100) :
    (survivors eps m).length < m.length := by
  rcases minpercent_attained m hne h100 with ⟨p, hp, hpv⟩
  have hw : inWindow eps (minpercent m) p.2 = true := by
    rw [hpv]; exact inWindow_of_min heps _
  rw [survivors, List.length_map]
  exact List.length_filter_lt_length_iff_exists.mpr ⟨p, hp, by simp [hw]⟩

theorem survivors_keys_subset {eps : ℚ} {m : Motif} :
    keys (survivors eps m) ⊆ keys m := by
  intro k hk
  rcases List.mem_map.mp hk with ⟨p', hp', rfl⟩
  rcases mem_survivors.mp hp' with ⟨p, hp, _, rfl⟩
  exact List.mem_map.mpr ⟨p, hp, rfl⟩

theorem survivors_keys_nodup {eps : ℚ} {m : Motif}
    (h : (keys m).Nodup) : (keys (survivors eps m)).Nodup := by
  have h1 : keys (survivors eps m) =
      keys (m.filter fun p => !(inWindow eps (minpercent m) p.2)) := by
    rw [survivors, keys, keys, List.map_map]
    rfl
  rw [h1]
  exact h.sublist (List.Sublist.map _ (List.filter_sublist m))

/-! ### Unfolding equations for the inner loop -/

theorem decomposeAux_nil {inv eps : ℚ} {fuel : ℕ} {sp : ℕ → ℚ} {tot : ℚ} :
    decomposeAux inv eps fuel [] sp tot = some ⟨[], sp, tot⟩ := by
  cases fuel <;> rfl

theorem decomposeAux_cons {inv eps : ℚ} {fuel : ℕ} {q : ℕ × ℚ} {rest : Motif}
    {sp : ℕ → ℚ} {tot : ℚ} :
    decomposeAux inv eps (fuel + 1) (q :: rest) sp tot =
      (decomposeAux inv eps fuel (survivors eps (q :: rest))
        (fun k => if k ∈ keys (q :: rest) then
            sp k + stepCost inv (minpercent (q :: rest)) else sp k)
        (tot + stepCost inv (minpercent (q :: rest)) *
          (q :: rest).length)).map
      fun r => ⟨⟨minpercent (q :: rest), q :: rest, droppedKeys eps (q :: rest)⟩
        :: r.steps, r.spend, r.total⟩ := rfl

/-- Termination of the inner loop: for a valid allocation (all weights in
`[0, 100]`) and `epsilon ≥ 0`, fuel equal to the number of symbols always
suffices, and the plan has at most one step per symbol. -/
theorem decomposeAux_terminates {inv eps : ℚ} (heps : 0 ≤ eps) :
    ∀ fuel (m : Motif) (sp : ℕ → ℚ) (tot : ℚ), m.length ≤ fuel →
      (∀ p ∈ m, 0 ≤ p.2 ∧ p.2 ≤ 100) →
      ∃ r, decomposeAux inv eps fuel m sp tot = some r ∧
        r.steps.length ≤ m.length := by
  intro fuel
  induction fuel with
  | zero =>
    intro m sp tot hlen _
    have hm : m = [] := List.length_eq_zero.mp (Nat.le_zero.mp hlen)
    subst hm
    exact ⟨⟨[], sp, tot⟩, decomposeAux_nil, by simp⟩
  | succ f ih =>
    intro m sp tot hlen hb
    cases m with
    | nil => exact ⟨⟨[], sp, tot⟩, decomposeAux_nil, by simp⟩
    | cons q rest =>
      have hne : (q :: rest) ≠ [] := by simp
      have hlt := survivors_length_lt heps hne (fun p hp => (hb p hp).2)
      obtain ⟨r', h', hlen'⟩ :=
        ih (survivors eps (q :: rest)) _ _ (by omega) (survivors_bounded heps hb)
      refine ⟨_, by rw [decomposeAux_cons, h']; rfl, ?_⟩
      have hq : (q :: rest).length = rest.length + 1 := rfl
      simp only [List.length_cons]
      omega

/-- Every run of a valid allocation terminates with the default fuel. -/
theorem decompose_terminates (inv : ℚ) {eps : ℚ} (heps : 0 ≤ eps) (m : Motif)
    (hb : ∀ p ∈ m, 0 ≤ p.2 ∧ p.2 ≤ 100) :
    ∃ r, decompose inv eps m = some r ∧ r.steps.length ≤ m.length :=
  decomposeAux_terminates heps m.length m _ _ (le_refl _) hb

/-- Every emitted step drops at least one symbol, and in particular every
symbol whose residual weight attains the step's minimum is dropped. -/
theorem decomposeAux_dropped {inv eps : ℚ} (heps : 0 ≤ eps) :
    ∀ fuel (m : Motif) (sp : ℕ → ℚ) (tot : ℚ) (r : RunResult),
      (∀ p ∈ m, 0 ≤ p.2 ∧ p.2 ≤ 100) →
      decomposeAux inv eps fuel m sp tot = some r →
      ∀ s ∈ r.steps, s.dropped ≠ [] ∧
        ∀ p ∈ s.active, p.2 = s.weight → p.1 ∈ s.dropped := by
  intro fuel
  induction fuel with
  | zero =>
    intro m sp tot r _ h s hs
    cases m with
    | nil =>
      rw [decomposeAux_nil] at h
      cases Option.some.inj h
      simp at hs
    | cons q rest => simp [decomposeAux] at h
  | succ f ih =>
    intro m sp tot r hb h s hs
    cases m with
    | nil =>
      rw [decomposeAux_nil] at h
      cases Option.some.inj h
      simp at hs
    | cons q rest =>
      rw [decomposeAux_cons] at h
      rcases Option.map_eq_some'.mp h with ⟨r', hrec, rfl⟩
      simp only [List.mem_cons] at hs
      rcases hs with rfl | hs
      · constructor
        · exact droppedKeys_ne_nil heps (by simp) (fun p hp => (hb p hp).2)
        · intro p hp hpv
          have hw : inWindow eps (minpercent (q :: rest)) p.2 = true := by
            rw [hpv]; exact inWindow_of_min heps _
          exact List.mem_map.mpr ⟨p, List.mem_filter.mpr ⟨hp, hw⟩, rfl⟩
      · exact ih _ _ _ _ (survivors_bounded heps hb) hrec s hs

/-- Every emitted step's per-unit weight is the minimum residual weight of
its active set: a lower bound that is attained. -/
theorem decomposeAux_weight_min {inv eps : ℚ} (heps : 0 ≤ eps) :
    ∀ fuel (m : Motif) (sp : ℕ → ℚ) (tot : ℚ) (r : RunResult),
      (∀ p ∈ m, 0 ≤ p.2 ∧ p.2 ≤ 100) →
      decomposeAux inv eps fuel m sp tot = some r →
      ∀ s ∈ r.steps, (∀ p ∈ s.active, s.weight ≤ p.2) ∧
        ∃ p ∈ s.active, p.2 = s.weight := by
  intro fuel
  induction fuel with
  | zero =>
    intro m sp tot r _ h s hs
    cases m with
    | nil =>
      rw [decomposeAux_nil] at h
      cases Option.some.inj h
      simp at hs
    | cons q rest => simp [decomposeAux] at h
  | succ f ih =>
    intro m sp tot r hb h s hs
    cases m with
    | nil =>
      rw [decomposeAux_nil] at h
      cases Option.some.inj h
      simp at hs
    | cons q rest =>
      rw [decomposeAux_cons] at h
      rcases Option.map_eq_some'.mp h with ⟨r', hrec, rfl⟩
      simp only [List.mem_cons] at hs
      rcases hs with rfl | hs
      · exact ⟨minpercent_le _,
          minpercent_attained _ (by simp) (fun p hp => (hb p hp).2)⟩
      · exact ih _ _ _ _ (survivors_bounded heps hb) hrec s hs

/-! ### Reconstruction of the original weights (epsilon = 0) -/

theorem contrib_cons {k : ℕ} {s : Step} {steps : List Step} :
    contrib k (s :: steps) =
      (if k ∈ keys s.active then s.weight else 0) + contrib k steps := by
  simp [contrib]

theorem keys_nodup_val_eq {m : Motif} (h : (keys m).Nodup) {k : ℕ} {a b : ℚ}
    (ha : (k, a) ∈ m) (hb : (k, b) ∈ m) : a = b := by
  induction m with
  | nil => simp at ha
  | cons q rest ih =>
    rw [keys, List.map_cons, List.nodup_cons] at h
    rcases List.mem_cons.mp ha with ha' | ha' <;>
      rcases List.mem_cons.mp hb with hb' | hb'
    · rw [← ha'] at hb'
      exact (congrArg Prod.snd hb').symm
    · exfalso
      apply h.1
      rw [← ha']
      exact List.mem_map.mpr ⟨(k, b), hb', rfl⟩
    · exfalso
      apply h.1
      rw [← hb']
      exact List.mem_map.mpr ⟨(k, a), ha', rfl⟩
    · exact ih h.2 ha' hb'

theorem decomposeAux_contrib_zero {inv eps : ℚ} :
    ∀ fuel (m : Motif) (sp : ℕ → ℚ) (tot : ℚ) (r : RunResult) (k : ℕ),
      decomposeAux inv eps fuel m sp tot = some r →
      k ∉ keys m → contrib k r.steps = 0 := by
  intro fuel
  induction fuel with
  | zero =>
    intro m sp tot r k h hk
    cases m with
    | nil =>
      rw [decomposeAux_nil] at h
      cases Option.some.inj h
      simp [contrib]
    | cons q rest => simp [decomposeAux] at h
  | succ f ih =>
    intro m sp tot r k h hk
    cases m with
    | nil =>
      rw [decomposeAux_nil] at h
      cases Option.some.inj h
      simp [contrib]
    | cons q rest =>
      rw [decomposeAux_cons] at h
      rcases Option.map_eq_some'.mp h with ⟨r', hrec, rfl⟩
      have hk' : k ∉ keys (survivors eps (q :: rest)) :=
        fun hmem => hk (survivors_keys_subset hmem)
      simp only [contrib_cons]
      rw [if_neg hk, ih _ _ _ _ _ hrec hk']
      ring

theorem decomposeAux_contrib {inv : ℚ} :
    ∀ fuel (m : Motif) (sp : ℕ → ℚ) (tot : ℚ) (r : RunResult),
      decomposeAux inv 0 fuel m sp tot = some r →
      (keys m).Nodup → ∀ k w, (k, w) ∈ m → contrib k r.steps = w := by
  intro fuel
  induction fuel with
  | zero =>
    intro m sp tot r h _ k w hkw
    cases m with
    | nil => simp at hkw
    | cons q rest => simp [decomposeAux] at h
  | succ f ih =>
    intro m sp tot r h hnd k w hkw
    cases m with
    | nil => simp at hkw
    | cons q rest =>
      rw [decomposeAux_cons] at h
      rcases Option.map_eq_some'.mp h with ⟨r', hrec, rfl⟩
      have hkm : k ∈ keys (q :: rest) := List.mem_map.mpr ⟨(k, w), hkw, rfl⟩
      simp only [contrib_cons]
      rw [if_pos hkm]
      by_cases hw : inWindow 0 (minpercent (q :: rest)) w = true
      · have hwm : w = minpercent (q :: rest) := inWindow_zero_iff.mp hw
        have hk' : k ∉ keys (survivors 0 (q :: rest)) := by
          intro hmem
          rcases List.mem_map.mp hmem with ⟨p', hp', hfst⟩
          rcases mem_survivors.mp hp' with ⟨p, hp, hnw, rfl⟩
          have hval : p.2 = w := by
            have : (k, p.2) ∈ (q :: rest) := by
              have : p = (k, p.2) := Prod.ext hfst rfl
              rwa [← this]
            exact keys_nodup_val_eq hnd this hkw
          exact hnw (by rw [hval]; exact hw)
        rw [decomposeAux_contrib_zero _ _ _ _ _ _ hrec hk', hwm]
        ring
      · have hsurv : (k, w - minpercent (q :: rest)) ∈ survivors 0 (q :: rest) :=
          mem_survivors.mpr ⟨(k, w), hkw, hw, rfl⟩
        rw [ih _ _ _ _ hrec (survivors_keys_nodup hnd) k _ hsurv]
        ring

/-! ### Spend and total accounting -/

theorem decomposeAux_spend {inv eps : ℚ} :
    ∀ fuel (m : Motif) (sp : ℕ → ℚ) (tot : ℚ) (r : RunResult),
      decomposeAux inv eps fuel m sp tot = some r →
      ∀ k, r.spend k = sp k + contribCost inv k r.steps := by
  intro fuel
  induction fuel with
  | zero =>
    intro m sp tot r h k
    cases m with
    | nil =>
      rw [decomposeAux_nil] at h
      cases Option.some.inj h
      simp [contribCost]
    | cons q rest => simp [decomposeAux] at h
  | succ f ih =>
    intro m sp tot r h k
    cases m with
    | nil =>
      rw [decomposeAux_nil] at h
      cases Option.some.inj h
      simp [contribCost]
    | cons q rest =>
      rw [decomposeAux_cons] at h
      rcases Option.map_eq_some'.mp h with ⟨r', hrec, rfl⟩
      have := ih _ _ _ _ hrec k
      simp only [contribCost, List.map_cons, List.sum_cons] at this ⊢
      rw [this]
      by_cases hk : k ∈ keys (q :: rest)
      · rw [if_pos hk, if_pos hk]; ring
      · rw [if_neg hk, if_neg hk]; ring

theorem decomposeAux_total {inv eps : ℚ} :
    ∀ fuel (m : Motif) (sp : ℕ → ℚ) (tot : ℚ) (r : RunResult),
      decomposeAux inv eps fuel m sp tot = some r →
      r.total = tot + planTotal inv r.steps := by
  intro fuel
  induction fuel with
  | zero =>
    intro m sp tot r h
    cases m with
    | nil =>
      rw [decomposeAux_nil] at h
      cases Option.some.inj h
      simp [planTotal]
    | cons q rest => simp [decomposeAux] at h
  | succ f ih =>
    intro m sp tot r h
    cases m with
    | nil =>
      rw [decomposeAux_nil] at h
      cases Option.some.inj h
      simp [planTotal]
    | cons q rest =>
      rw [decomposeAux_cons] at h
      rcases Option.map_eq_some'.mp h with ⟨r', hrec, rfl⟩
      have := ih _ _ _ _ hrec
      simp only [planTotal, List.map_cons, List.sum_cons] at this ⊢
      rw [this]
      ring

/-! ### Sum of per-symbol spends -/

theorem sum_map_ite (c : ℚ) :
    ∀ (K A : List ℕ), K.Nodup → A.Nodup → A ⊆ K →
      (K.map fun k => if k ∈ A then c else 0).sum = c * A.length := by
  intro K
  induction K with
  | nil =>
    intro A _ _ hsub
    rw [List.subset_nil.mp hsub]
    simp
  | cons x K' ih =>
    intro A hK hA hsub
    rw [List.nodup_cons] at hK
    by_cases hx : x ∈ A
    · have hA' : (A.erase x).Nodup := hA.erase x
      have hsub' : A.erase x ⊆ K' := by
        intro a ha
        have hax : a ≠ x ∧ a ∈ A := (hA.mem_erase_iff).mp ha
        rcases List.mem_cons.mp (hsub hax.2) with h | h
        · exact absurd h hax.1
        · exact h
      have hcongr : K'.map (fun k => if k ∈ A then c else 0) =
          K'.map (fun k => if k ∈ A.erase x then c else 0) := by
        apply List.map_congr_left
        intro a haK
        have hax : a ≠ x := fun hc => hK.1 (hc ▸ haK)
        by_cases haA : a ∈ A
        · rw [if_pos haA, if_pos ((hA.mem_erase_iff).mpr ⟨hax, haA⟩)]
        · rw [if_neg haA, if_neg (fun hc => haA ((hA.mem_erase_iff).mp hc).2)]
      have hlen : (A.erase x).length + 1 = A.length := by
        rw [List.length_erase_of_mem hx]
        have := List.length_pos.mpr (List.ne_nil_of_mem hx)
        omega
      rw [List.map_cons, List.sum_cons, if_pos hx, hcongr,
        ih _ hK.2 hA' hsub']
      have : ((A.erase x).length : ℚ) + 1 = (A.length : ℚ) := by
        exact_mod_cast congrArg (Nat.cast : ℕ → ℚ) hlen
      rw [← this]
      ring
    · have hsub' : A ⊆ K' := by
        intro a ha
        rcases List.mem_cons.mp (hsub ha) with h | h
        · exact absurd (h ▸ ha) hx
        · exact h
      rw [List.map_cons, List.sum_cons, if_neg hx, ih _ hK.2 hA hsub']
      ring

theorem decomposeAux_spend_sum {inv eps : ℚ} :
    ∀ fuel (m : Motif) (sp : ℕ → ℚ) (tot : ℚ) (r : RunResult) (K : List ℕ),
      decomposeAux inv eps fuel m sp tot = some r →
      K.Nodup → keys m ⊆ K → (keys m).Nodup →
      (K.map r.spend).sum + tot = (K.map sp).sum + r.total := by
  intro fuel
  induction fuel with
  | zero =>
    intro m sp tot r K h _ _ _
    cases m with
    | nil =>
      rw [decomposeAux_nil] at h
      cases Option.some.inj h
      simp
    | cons q rest => simp [decomposeAux] at h
  | succ f ih =>
    intro m sp tot r K h hK hsub hnd
    cases m with
    | nil =>
      rw [decomposeAux_nil] at h
      cases Option.some.inj h
      simp
    | cons q rest =>
      rw [decomposeAux_cons] at h
      rcases Option.map_eq_some'.mp h with ⟨r', hrec, rfl⟩
      have hIH := ih _ _ _ _ K hrec hK
        (fun k hk => hsub (survivors_keys_subset hk))
        (survivors_keys_nodup hnd)
      have hsp : (K.map fun k => if k ∈ keys (q :: rest) then
          sp k + stepCost inv (minpercent (q :: rest)) else sp k).sum =
          (K.map sp).sum +
            stepCost inv (minpercent (q :: rest)) * (keys (q :: rest)).length := by
        have h1 : (K.map fun k => if k ∈ keys (q :: rest) then
            sp k + stepCost inv (minpercent (q :: rest)) else sp k) =
            K.map fun k => sp k + (if k ∈ keys (q :: rest) then
              stepCost inv (minpercent (q :: rest)) else 0) := by
          apply List.map_congr_left
          intro a _
          by_cases ha : a ∈ keys (q :: rest)
          · rw [if_pos ha, if_pos ha]
          · rw [if_neg ha, if_neg ha]; ring
        rw [h1, List.sum_map_add, sum_map_ite _ K _ hK hnd hsub]
      have hklen : ((keys (q :: rest)).length : ℚ) = ((q :: rest).length : ℚ) := by
        rw [keys, List.length_map]
      simp only at hIH
      rw [hsp, hklen] at hIH
      linarith

/-! ### Step count versus distinct weight values (epsilon = 0) -/

theorem survivors_distinct_card {m : Motif} (hne : m ≠ [])
    (hb : ∀ p ∈ m, 0 ≤ p.2 ∧ p.2 ≤ 100) :
    (vals (survivors 0 m)).toFinset.card + 1 = (vals m).toFinset.card := by
  have himg : (vals (survivors 0 m)).toFinset =
      ((vals m).toFinset.erase (minpercent m)).image
        (fun v => v - minpercent m) := by
    ext x
    simp only [List.mem_toFinset, Finset.mem_image, Finset.mem_erase,
      List.mem_toFinset]
    constructor
    · intro hx
      rcases List.mem_map.mp hx with ⟨p', hp', rfl⟩
      rcases mem_survivors.mp hp' with ⟨p, hp, hnw, rfl⟩
      refine ⟨p.2, ⟨?_, List.mem_map.mpr ⟨p, hp, rfl⟩⟩, rfl⟩
      intro hc
      exact hnw (inWindow_zero_iff.mpr hc)
    · rintro ⟨v, ⟨hvne, hv⟩, rfl⟩
      rcases List.mem_map.mp hv with ⟨p, hp, rfl⟩
      have hnw : ¬ inWindow 0 (minpercent m) p.2 = true := by
        intro hc
        exact hvne (inWindow_zero_iff.mp hc)
      exact List.mem_map.mpr
        ⟨(p.1, p.2 - minpercent m), mem_survivors.mpr ⟨p, hp, hnw, rfl⟩, rfl⟩
  rw [himg, Finset.card_image_of_injective _ sub_left_injective,
    Finset.card_erase_add_one]
  rcases minpercent_attained m hne (fun p hp => (hb p hp).2) with ⟨p, hp, hpv⟩
  exact List.mem_toFinset.mpr (hpv ▸ List.mem_map.mpr ⟨p, hp, rfl⟩)

theorem decomposeAux_steps_le_distinct {inv : ℚ} :
    ∀ fuel (m : Motif) (sp : ℕ → ℚ) (tot : ℚ) (r : RunResult),
      (∀ p ∈ m, 0 ≤ p.2 ∧ p.2 ≤ 100) →
      decomposeAux inv 0 fuel m sp tot = some r →
      r.steps.length ≤ (vals m).toFinset.card := by
  intro fuel
  induction fuel with
  | zero =>
    intro m sp tot r _ h
    cases m with
    | nil =>
      rw [decomposeAux_nil] at h
      cases Option.some.inj h
      simp
    | cons q rest => simp [decomposeAux] at h
  | succ f ih =>
    intro m sp tot r hb h
    cases m with
    | nil =>
      rw [decomposeAux_nil] at h
      cases Option.some.inj h
      simp
    | cons q rest =>
      rw [decomposeAux_cons] at h
      rcases Option.map_eq_some'.mp h with ⟨r', hrec, rfl⟩
      have hcard := survivors_distinct_card (m := q :: rest) (by simp) hb
      have htail := ih _ _ _ _ (survivors_bounded le_rfl hb) hrec
      simp only [List.length_cons]
      omega

/-! ### Monotonicity of the step count in epsilon

A run at the larger tolerance `eps2` is simulated by the run at `eps1`:
its residual state is, up to a uniform downward shift `d` of all residual
weights, a subset of the `eps1` state, so it can never take more steps. -/

theorem decomposeAux_sim {inv1 inv2 eps1 eps2 : ℚ}
    (he1 : 0 ≤ eps1) (he : eps1 ≤ eps2) :
    ∀ fuel1 fuel2 (m1 m2 : Motif) (sp1 : ℕ → ℚ) (tot1 : ℚ)
      (sp2 : ℕ → ℚ) (tot2 : ℚ) (r1 r2 : RunResult) (d : ℚ),
      0 ≤ d →
      (∀ p ∈ m1, 0 ≤ p.2 ∧ p.2 ≤ 100) →
      (∀ p ∈ m2, 0 ≤ p.2 ∧ p.2 ≤ 100) →
      (∀ p ∈ m2, (p.1, p.2 + d) ∈ m1) →
      decomposeAux inv1 eps1 fuel1 m1 sp1 tot1 = some r1 →
      decomposeAux inv2 eps2 fuel2 m2 sp2 tot2 = some r2 →
      r2.steps.length ≤ r1.steps.length := by
  intro fuel1
  induction fuel1 with
  | zero =>
    intro fuel2 m1 m2 sp1 tot1 sp2 tot2 r1 r2 d _ _ _ hR h1 h2
    cases m1 with
    | nil =>
      cases m2 with
      | nil =>
        rw [decomposeAux_nil] at h2
        cases Option.some.inj h2
        simp
      | cons q2 rest2 =>
        exact absurd (hR q2 (List.mem_cons_self _ _)) (List.not_mem_nil _)
    | cons q1 rest1 => simp [decomposeAux] at h1
  | succ f1 ih =>
    intro fuel2 m1 m2 sp1 tot1 sp2 tot2 r1 r2 d hd hb1 hb2 hR h1 h2
    cases m2 with
    | nil =>
      rw [decomposeAux_nil] at h2
      cases Option.some.inj h2
      simp
    | cons q2 rest2 =>
      cases m1 with
      | nil =>
        exact absurd (hR q2 (List.mem_cons_self _ _)) (List.not_mem_nil _)
      | cons q1 rest1 =>
        cases fuel2 with
        | zero => simp [decomposeAux] at h2
        | succ f2 =>
          rw [decomposeAux_cons] at h1 h2
          rcases Option.map_eq_some'.mp h1 with ⟨r1', hrec1, rfl⟩
          rcases Option.map_eq_some'.mp h2 with ⟨r2', hrec2, rfl⟩
          have he2 : 0 ≤ eps2 := le_trans he1 he
          have hmp : minpercent (q1 :: rest1) ≤ minpercent (q2 :: rest2) + d := by
            rcases minpercent_attained (q2 :: rest2) (by simp)
              (fun p hp => (hb2 p hp).2) with ⟨p, hp, hpv⟩
            have hm1 := minpercent_le (q1 :: rest1) _ (hR p hp)
            simp only at hm1
            linarith [hpv ▸ hm1]
          have hd' : 0 ≤ d + minpercent (q2 :: rest2) -
              minpercent (q1 :: rest1) := by linarith
          have hR' : ∀ p ∈ survivors eps2 (q2 :: rest2),
              (p.1, p.2 + (d + minpercent (q2 :: rest2) -
                minpercent (q1 :: rest1))) ∈ survivors eps1 (q1 :: rest1) := by
            intro p' hp'
            rcases mem_survivors.mp hp' with ⟨p, hp, hnw, rfl⟩
            have hv2min := minpercent_le (q2 :: rest2) p hp
            have hv2gt : minpercent (q2 :: rest2) + eps2 < p.2 := by
              have hnle : ¬ (p.2 ≤ minpercent (q2 :: rest2) + eps2) := by
                intro hle
                exact hnw (inWindow_iff.mpr ⟨by linarith, hle⟩)
              exact not_le.mp hnle
            have hnw1 : ¬ inWindow eps1 (minpercent (q1 :: rest1))
                (p.2 + d) = true := by
              intro hc
              have := (inWindow_iff.mp hc).2
              linarith
            refine mem_survivors.mpr ⟨(p.1, p.2 + d), hR p hp, hnw1, ?_⟩
            rw [Prod.mk.injEq]
            exact ⟨rfl, by ring⟩
          have := ih f2 (survivors eps1 (q1 :: rest1))
            (survivors eps2 (q2 :: rest2)) _ _ _ _ r1' r2' _ hd'
            (survivors_bounded he1 hb1) (survivors_bounded he2 hb2)
            hR' hrec1 hrec2
          simp only [List.length_cons]
          omega

/-! ### The epsilon schedule of the tolerance search -/

theorem searchAux_eps_sched {inv ms : ℚ} {orig : Motif} :
    ∀ (ds : List ℚ) (eps lastSlop : ℚ),
      ∃ t, (searchAux inv ms orig ds eps lastSlop).map Iter.eps ++ t =
        epsSchedule eps ds := by
  intro ds
  induction ds with
  | nil =>
    intro eps lastSlop
    cases h : decompose inv eps orig with
    | none => exact ⟨[eps], by simp [searchAux, h, epsSchedule]⟩
    | some r => exact ⟨[], by simp [searchAux, h, epsSchedule]⟩
  | cons d ds' ih =>
    intro eps lastSlop
    cases h : decompose inv eps orig with
    | none => exact ⟨epsSchedule eps (d :: ds'), by simp [searchAux, h]⟩
    | some r =>
      by_cases hs : |inv - r.total| ≤ ms
      · obtain ⟨t, ht⟩ := ih (eps + d) |inv - r.total|
        refine ⟨t, ?_⟩
        simp only [searchAux, h, hs, if_true, List.map_cons, epsSchedule]
        rw [List.cons_append, ht]
      · exact ⟨epsSchedule (eps + d) ds',
          by simp [searchAux, h, hs, epsSchedule]⟩

/-! ### The claims -/

/-- Claim C1: for every allocation with weights in `[0, 100]` and distinct
symbols, and epsilon = 0, the sum over all steps of
`per-unit weight × (1 if the symbol is active in the step else 0)` equals
the symbol's original target weight (exactly, in `ℚ`). -/
theorem C1_reconstruction (inv : ℚ) (m : Motif) (k : ℕ) (w : ℚ)
    (hb : ∀ p ∈ m, 0 ≤ p.2 ∧ p.2 ≤ 100) (hnd : (keys m).Nodup)
    (hkw : (k, w) ∈ m) :
    ∃ r, decompose inv 0 m = some r ∧ contrib k r.steps = w := by
  obtain ⟨r, hr, _⟩ := decompose_terminates inv le_rfl m hb
  exact ⟨r, hr, decomposeAux_contrib _ _ _ _ _ hr hnd k w hkw⟩

/-- Witness for C1 on the worked allocation: symbol 2 (weight 20). -/
theorem C1_reconstruction_witness :
    (2, (20:ℚ)) ∈ specAlloc ∧
      ∃ r, decompose 100 0 specAlloc = some r ∧ contrib 2 r.steps = 20 :=
  ⟨by decide,
    C1_reconstruction 100 specAlloc 2 20 (by decide) (by decide) (by decide)⟩

/-- Claim C2 (code bug): converting the first step of `{A: 3, B: 97}` at a
100-dollar investment yields a step cost of three dollars, below the
five-dollar minimum order size; the engine nevertheless reports the
three-dollar spend for the symbol unchanged — the minimum-order rule of the
script's comment (lines 135–137) is not implemented, and no step carries a
deviation flag. -/
theorem C2_no_minimum_order :
    stepCost 100 3 = 3 ∧ stepCost 100 3 < 5 ∧
      (decompose 100 0 smallAlloc).map (fun r => r.spend 0) =
        some (stepCost 100 3) ∧
      (decompose 100 0 smallAlloc).map (fun r => r.steps.map Step.weight) =
        some [3, 94] := by
  norm_num [decompose, decomposeAux, survivors, droppedKeys, minpercent,
    inWindow, stepCost, keys, smallAlloc]

/-- Counterexample to claim C3: on the sum-100 allocation
`{A: 1, B: 21, C: 38, D: 40}` at a 100-dollar investment, raising epsilon
from 19 to 20 lowers the plan's total slop from 36 to 22 dollars. -/
theorem C3_slop_not_monotone :
    (vals slopAlloc).sum = 100 ∧ ((19:ℚ) < 20) ∧
      slopOf 100 19 slopAlloc = some 36 ∧
      slopOf 100 20 slopAlloc = some 22 ∧ ¬ ((36:ℚ) ≤ 22) := by
  norm_num [slopOf, decompose, decomposeAux, survivors, droppedKeys,
    minpercent, inWindow, stepCost, keys, vals, slopAlloc]

/-- Claim C3 as amended: for a fixed allocation with weights in `[0, 100]`,
increasing epsilon never increases the resulting plan's step count (the
slop half of the original claim is refuted by the counterexample). -/
theorem C3_steps_monotone (inv1 inv2 e1 e2 : ℚ) (m : Motif)
    (hb : ∀ p ∈ m, 0 ≤ p.2 ∧ p.2 ≤ 100) (he1 : 0 ≤ e1) (he : e1 ≤ e2) :
    ∃ n1 n2, stepCountOf inv1 e1 m = some n1 ∧
      stepCountOf inv2 e2 m = some n2 ∧ n2 ≤ n1 := by
  obtain ⟨r1, h1, _⟩ := decompose_terminates inv1 he1 m hb
  obtain ⟨r2, h2, _⟩ := decompose_terminates inv2 (le_trans he1 he) m hb
  refine ⟨r1.steps.length, r2.steps.length, by simp [stepCountOf, h1],
    by simp [stepCountOf, h2], ?_⟩
  exact decomposeAux_sim he1 he m.length m.length m m _ _ _ _ r1 r2 0
    le_rfl hb hb (fun p hp => by simpa using hp) h1 h2

/-- Witness for the amended C3 on the counterexample allocation. -/
theorem C3_steps_monotone_witness :
    ((0:ℚ) ≤ 19) ∧ ((19:ℚ) ≤ 20) ∧
      ∃ n1 n2, stepCountOf 100 19 slopAlloc = some n1 ∧
        stepCountOf 100 20 slopAlloc = some n2 ∧ n2 ≤ n1 :=
  ⟨by norm_num, by norm_num,
    C3_steps_monotone 100 100 19 20 slopAlloc (by decide)
      (by norm_num) (by norm_num)⟩

/-- Claim C4: for every allocation with weights in `[0, 100]` and every
epsilon ≥ 0, the decomposition terminates within `|allocation|` steps, every
step drops at least one symbol, and every symbol attaining the step's
minimum residual weight is dropped. -/
theorem C4_termination (inv eps : ℚ) (m : Motif) (hne : m ≠ [])
    (hb : ∀ p ∈ m, 0 ≤ p.2 ∧ p.2 ≤ 100) (heps : 0 ≤ eps) :
    ∃ r, decompose inv eps m = some r ∧ r.steps.length ≤ m.length ∧
      ∀ s ∈ r.steps, s.dropped ≠ [] ∧
        ∀ p ∈ s.active, p.2 = s.weight → p.1 ∈ s.dropped := by
  obtain ⟨r, hr, hlen⟩ := decompose_terminates inv heps m hb
  exact ⟨r, hr, hlen, decomposeAux_dropped heps _ _ _ _ _ hb hr⟩

/-- Witness for C4 on the worked allocation at epsilon = 5. -/
theorem C4_termination_witness :
    specAlloc ≠ [] ∧ ((0:ℚ) ≤ 5) ∧
      ∃ r, decompose 100 5 specAlloc = some r ∧
        r.steps.length ≤ specAlloc.length ∧
        ∀ s ∈ r.steps, s.dropped ≠ [] ∧
          ∀ p ∈ s.active, p.2 = s.weight → p.1 ∈ s.dropped :=
  ⟨by decide, by norm_num,
    C4_termination 100 5 specAlloc (by decide) (by decide) (by norm_num)⟩

/-- Counterexample to claim C5: the worked allocation `{A: 50, B: 30, C: 20}`
at epsilon = 0 produces the per-unit weight sequence `[20, 10, 20]`, which is
not monotonically increasing (step 2 spends less than step 1). -/
theorem C5_weights_not_increasing :
    (decompose 100 0 specAlloc).map (fun r => r.steps.map Step.weight) =
        some [20, 10, 20] ∧
      ¬ List.Chain' (· ≤ ·) [(20:ℚ), 10, 20] := by
  constructor
  · norm_num [decompose, decomposeAux, survivors, droppedKeys, minpercent,
      inWindow, stepCost, keys, specAlloc]
  · intro hc
    have := List.chain'_cons.mp hc
    norm_num at this

/-- Claim C5 as amended: within every decomposition run (weights in
`[0, 100]`, epsilon ≥ 0), each step's per-unit weight is the minimum
residual weight among its active symbols — the currently-smallest weight is
always the one extracted — though the weights of successive steps need not
increase. -/
theorem C5_step_weight_is_min (inv eps : ℚ) (m : Motif)
    (hb : ∀ p ∈ m, 0 ≤ p.2 ∧ p.2 ≤ 100) (heps : 0 ≤ eps) :
    ∃ r, decompose inv eps m = some r ∧ ∀ s ∈ r.steps,
      (∀ p ∈ s.active, s.weight ≤ p.2) ∧ ∃ p ∈ s.active, p.2 = s.weight := by
  obtain ⟨r, hr, _⟩ := decompose_terminates inv heps m hb
  exact ⟨r, hr, decomposeAux_weight_min heps _ _ _ _ _ hb hr⟩

/-- Witness for the amended C5 on the worked allocation. -/
theorem C5_step_weight_is_min_witness :
    ((0:ℚ) ≤ 0) ∧
      ∃ r, decompose 100 0 specAlloc = some r ∧ ∀ s ∈ r.steps,
        (∀ p ∈ s.active, s.weight ≤ p.2) ∧ ∃ p ∈ s.active, p.2 = s.weight :=
  ⟨le_rfl, C5_step_weight_is_min 100 0 specAlloc (by decide) le_rfl⟩

/-- Counterexample to claim C6: on the worked allocation the recorded delta
list is `[20, 10, 20]` — the per-step minimum weights in step order, which
are not distinct — and the search, after the baseline, raises epsilon by the
front delta 20 even though the smaller recorded delta 10 remains: its
epsilon sequence is `[0, 20, 30, 50]`, not `[0, 10, ...]`. -/
theorem C6_deltas_not_distinct :
    deltas0 100 specAlloc = [20, 10, 20] ∧
      ¬ (deltas0 100 specAlloc).Nodup ∧
      (searchTolerance 100 50 specAlloc).map Iter.eps = [0, 20, 30, 50] := by
  norm_num [searchTolerance, searchAux, deltas0, decompose, decomposeAux,
    survivors, droppedKeys, minpercent, inWindow, stepCost, keys, specAlloc]

/-- Claim C6 as amended: the tolerance search records, during the
epsilon = 0 baseline run, the per-step minimum weights in step order
(repetitions included) as its delta list, and each subsequent iteration
increases epsilon by the next recorded delta popped from the front: the
epsilon values used are an initial segment of the running prefix sums of
that list starting at 0. -/
theorem C6_eps_schedule (inv maxSlop : ℚ) (m : Motif) :
    ∃ t, (searchTolerance inv maxSlop m).map Iter.eps ++ t =
      epsSchedule 0 (deltas0 inv m) :=
  searchAux_eps_sched _ 0 (-1)

/-- Claim C7: whenever a run completes, the reported cumulative spend of a
symbol equals the sum, over the steps in which the symbol was active, of
`investment * weight / 100` — the full step cost, not divided by the number
of active symbols. -/
theorem C7_spend (inv eps : ℚ) (m : Motif) (r : RunResult) (k : ℕ)
    (h : decompose inv eps m = some r) :
    r.spend k = contribCost inv k r.steps := by
  have := decomposeAux_spend _ _ _ _ _ h k
  simpa using this

/-- Witness for C7 on the worked allocation: symbol 1. -/
theorem C7_spend_witness :
    ∃ r, decompose 100 0 specAlloc = some r ∧
      r.spend 1 = contribCost 100 1 r.steps := by
  obtain ⟨r, hr, _⟩ := decompose_terminates 100 le_rfl specAlloc (by decide)
  exact ⟨r, hr, C7_spend 100 0 specAlloc r 1 hr⟩

/-- Claim C8: whenever a run completes, `totalizedInvestment` equals the sum
over steps of `investment * (weight / 100) * (number of active symbols)`,
and the run's slop is `|investment - totalizedInvestment|`. -/
theorem C8_total (inv eps : ℚ) (m : Motif) (r : RunResult)
    (h : decompose inv eps m = some r) :
    r.total = planTotal inv r.steps ∧
      slopOf inv eps m = some |inv - r.total| := by
  constructor
  · simpa using decomposeAux_total _ _ _ _ _ h
  · simp [slopOf, h]

/-- Witness for C8 on the worked allocation. -/
theorem C8_total_witness :
    ∃ r, decompose 100 0 specAlloc = some r ∧
      r.total = planTotal 100 r.steps ∧
      slopOf 100 0 specAlloc = some |100 - r.total| := by
  obtain ⟨r, hr, _⟩ := decompose_terminates 100 le_rfl specAlloc (by decide)
  exact ⟨r, hr, C8_total 100 0 specAlloc r hr⟩

/-- Claim C9: for every allocation with weights in `[0, 100]`, the
epsilon = 0 decomposition has at most one step per distinct weight value. -/
theorem C9_steps_le_distinct (inv : ℚ) (m : Motif)
    (hb : ∀ p ∈ m, 0 ≤ p.2 ∧ p.2 ≤ 100) :
    ∃ r, decompose inv 0 m = some r ∧
      r.steps.length ≤ (vals m).toFinset.card := by
  obtain ⟨r, hr, _⟩ := decompose_terminates inv le_rfl m hb
  exact ⟨r, hr, decomposeAux_steps_le_distinct _ _ _ _ _ hb hr⟩

/-- Witness for C9 on the tied allocation (two distinct weight values). -/
theorem C9_steps_le_distinct_witness :
    ∃ r, decompose 100 0 tieAlloc = some r ∧
      r.steps.length ≤ (vals tieAlloc).toFinset.card :=
  C9_steps_le_distinct 100 tieAlloc (by decide)

/-- Claim C10: whenever a run completes on an allocation with distinct
symbols, the sum over all symbols of the reported cumulative spend equals
`totalizedInvestment`. -/
theorem C10_spend_sum (inv eps : ℚ) (m : Motif) (r : RunResult)
    (h : decompose inv eps m = some r) (hnd : (keys m).Nodup) :
    ((keys m).map r.spend).sum = r.total := by
  have := decomposeAux_spend_sum _ _ _ _ _ (keys m) h hnd
    (List.Subset.refl _) hnd
  simpa using this

/-- Witness for C10 on the worked allocation. -/
theorem C10_spend_sum_witness :
    (keys specAlloc).Nodup ∧
      ∃ r, decompose 100 0 specAlloc = some r ∧
        ((keys specAlloc).map r.spend).sum = r.total := by
  refine ⟨by decide, ?_⟩
  obtain ⟨r, hr, _⟩ := decompose_terminates 100 le_rfl specAlloc (by decide)
  exact ⟨r, hr, C10_spend_sum 100 0 specAlloc r hr (by decide)⟩

end Slicer
